import Mathlib

/-!
Shallow embedding of the closest-point / ray-intersection query engine
described by the repository's specification.  The repository itself holds
only notebook call sites (`mesh.nearest.on_surface`,
`mesh.ray.intersects_location`, `discrete_gaussian_curvature_measure`);
the engine they call lives in an external library, so every definition
below is modelled from the specification's words, over exact rational
coordinates.
-/

set_option allowUnsafeReducibility true

attribute [local semireducible] Rat.add Rat.mul Rat.inv Rat.sub Rat.div Rat.neg

namespace TrimeshSpec

/-- Three-dimensional vector with exact rational coordinates. -/
structure Vec3 where
  x : ℚ
  y : ℚ
  z : ℚ
deriving DecidableEq

def Vec3.add (u v : Vec3) : Vec3 := ⟨u.x + v.x, u.y + v.y, u.z + v.z⟩

def Vec3.sub (u v : Vec3) : Vec3 := ⟨u.x - v.x, u.y - v.y, u.z - v.z⟩

def Vec3.smul (c : ℚ) (v : Vec3) : Vec3 := ⟨c * v.x, c * v.y, c * v.z⟩

def Vec3.dot (u v : Vec3) : ℚ := u.x * v.x + u.y * v.y + u.z * v.z

def Vec3.cross (u v : Vec3) : Vec3 :=
  ⟨u.y * v.z - u.z * v.y, u.z * v.x - u.x * v.z, u.x * v.y - u.y * v.x⟩

/-- Squared Euclidean norm; the Euclidean length is its real square root. -/
def Vec3.sqnorm (v : Vec3) : ℚ := v.dot v

def Vec3.zero : Vec3 := ⟨0, 0, 0⟩

theorem Vec3.sqnorm_nonneg (v : Vec3) : 0 ≤ v.sqnorm := by
  have hx : 0 ≤ v.x * v.x := mul_self_nonneg v.x
  have hy : 0 ≤ v.y * v.y := mul_self_nonneg v.y
  have hz : 0 ≤ v.z * v.z := mul_self_nonneg v.z
  simp only [Vec3.sqnorm, Vec3.dot]
  linarith

/-- Clamp a scalar to the closed unit interval. -/
def clamp01 (t : ℚ) : ℚ := if t < 0 then 0 else if 1 < t then 1 else t

theorem clamp01_nonneg (t : ℚ) : 0 ≤ clamp01 t := by
  unfold clamp01
  split
  · exact le_refl 0
  · split
    · exact zero_le_one
    · linarith [not_lt.mp (by assumption : ¬ t < 0)]

theorem clamp01_le_one (t : ℚ) : clamp01 t ≤ 1 := by
  unfold clamp01
  split
  · exact zero_le_one
  · split
    · exact le_refl 1
    · exact not_lt.mp (by assumption)

/-- Closest point to `p` on the segment from `a` to `b`; for a zero-length
segment the rational division is zero, so the result degenerates to the
endpoint `a` (the point fallback). -/
def closestPtSeg (p a b : Vec3) : Vec3 :=
  a.add (Vec3.smul (clamp01 (Vec3.dot (p.sub a) (b.sub a) / Vec3.sqnorm (b.sub a))) (b.sub a))

/-- Squared distance from a point to a segment. -/
def segDistSq (p a b : Vec3) : ℚ := Vec3.sqnorm (p.sub (closestPtSeg p a b))

/-- Barycentric-style coefficients of the orthogonal projection of `p`
onto the plane of the triangle `a b c`: the projection is
`a + s (b - a) + t (c - a)`. -/
def triProjCoeffs (p a b c : Vec3) : ℚ × ℚ :=
  let e1 := b.sub a
  let e2 := c.sub a
  let dv := p.sub a
  let den := e1.dot e1 * e2.dot e2 - e1.dot e2 * e1.dot e2
  ((e2.dot e2 * e1.dot dv - e1.dot e2 * e2.dot dv) / den,
   (e1.dot e1 * e2.dot dv - e1.dot e2 * e1.dot dv) / den)

/-- Closest point among the three edge segments of a triangle. -/
def closestPtTriEdges (p a b c : Vec3) : Vec3 :=
  if Vec3.sqnorm (p.sub (closestPtSeg p b c)) < Vec3.sqnorm (p.sub (closestPtSeg p a b)) then
    if Vec3.sqnorm (p.sub (closestPtSeg p a c)) < Vec3.sqnorm (p.sub (closestPtSeg p b c)) then
      closestPtSeg p a c
    else closestPtSeg p b c
  else
    if Vec3.sqnorm (p.sub (closestPtSeg p a c)) < Vec3.sqnorm (p.sub (closestPtSeg p a b)) then
      closestPtSeg p a c
    else closestPtSeg p a b

/-- Closest point to `p` on the triangle `a b c`, including edge and
vertex clamping.  A degenerate (zero-area) triangle is treated through
its edge segments, i.e. as a line segment or point fallback. -/
def closestPtTri (p a b c : Vec3) : Vec3 :=
  if Vec3.cross (b.sub a) (c.sub a) = Vec3.zero then closestPtTriEdges p a b c
  else
    if 0 ≤ (triProjCoeffs p a b c).1 ∧ 0 ≤ (triProjCoeffs p a b c).2 ∧
        (triProjCoeffs p a b c).1 + (triProjCoeffs p a b c).2 ≤ 1 then
      (a.add (Vec3.smul (triProjCoeffs p a b c).1 (b.sub a))).add
        (Vec3.smul (triProjCoeffs p a b c).2 (c.sub a))
    else closestPtTriEdges p a b c

/-- Exact squared point-to-triangle distance. -/
def pointTriDistSq (p a b c : Vec3) : ℚ := Vec3.sqnorm (p.sub (closestPtTri p a b c))

theorem pointTriDistSq_nonneg (p a b c : Vec3) : 0 ≤ pointTriDistSq p a b c :=
  Vec3.sqnorm_nonneg _

theorem closestPtTriEdges_distSq (p a b c : Vec3) :
    Vec3.sqnorm (p.sub (closestPtTriEdges p a b c)) =
      min (segDistSq p a b) (min (segDistSq p b c) (segDistSq p a c)) := by
  unfold closestPtTriEdges segDistSq
  set d1 := Vec3.sqnorm (p.sub (closestPtSeg p a b)) with hd1
  set d2 := Vec3.sqnorm (p.sub (closestPtSeg p b c)) with hd2
  set d3 := Vec3.sqnorm (p.sub (closestPtSeg p a c)) with hd3
  by_cases h21 : d2 < d1
  · by_cases h32 : d3 < d2
    · simp only [if_pos h21, if_pos h32]
      rw [min_eq_right h32.le, min_eq_right (h32.trans h21).le]
    · simp only [if_pos h21, if_neg h32]
      rw [min_eq_left (not_lt.mp h32), min_eq_right h21.le]
  · by_cases h31 : d3 < d1
    · simp only [if_neg h21, if_pos h31]
      rw [min_eq_right (h31.trans_le (not_lt.mp h21)).le, min_eq_right h31.le]
    · simp only [if_neg h21, if_neg h31]
      rw [min_eq_left (le_min (not_lt.mp h21) (not_lt.mp h31))]

/-- A degenerate (zero-area) triangle is handled as the minimum over its
three edge segments. -/
theorem pointTriDistSq_degenerate (p a b c : Vec3)
    (h : Vec3.cross (b.sub a) (c.sub a) = Vec3.zero) :
    pointTriDistSq p a b c =
      min (segDistSq p a b) (min (segDistSq p b c) (segDistSq p a c)) := by
  unfold pointTriDistSq closestPtTri
  rw [if_pos h]
  exact closestPtTriEdges_distSq p a b c

theorem affine_coord_bounds (ax bx t : ℚ) (h0 : 0 ≤ t) (h1 : t ≤ 1) :
    min ax bx ≤ ax + t * (bx - ax) ∧ ax + t * (bx - ax) ≤ max ax bx := by
  constructor
  · rcases le_total ax bx with h | h
    · rw [min_eq_left h]; nlinarith
    · rw [min_eq_right h]; nlinarith
  · rcases le_total ax bx with h | h
    · rw [max_eq_right h]; nlinarith
    · rw [max_eq_left h]; nlinarith

theorem convex3_coord_bounds (ax bx cx s t : ℚ) (hs : 0 ≤ s) (ht : 0 ≤ t)
    (hst : s + t ≤ 1) :
    min (min ax bx) cx ≤ ax + s * (bx - ax) + t * (cx - ax) ∧
      ax + s * (bx - ax) + t * (cx - ax) ≤ max (max ax bx) cx := by
  have hm1 : min (min ax bx) cx ≤ ax := le_trans (min_le_left _ _) (min_le_left _ _)
  have hm2 : min (min ax bx) cx ≤ bx := le_trans (min_le_left _ _) (min_le_right _ _)
  have hm3 : min (min ax bx) cx ≤ cx := min_le_right _ _
  have hM1 : ax ≤ max (max ax bx) cx := le_trans (le_max_left _ _) (le_max_left _ _)
  have hM2 : bx ≤ max (max ax bx) cx := le_trans (le_max_right _ _) (le_max_left _ _)
  have hM3 : cx ≤ max (max ax bx) cx := le_max_right _ _
  have hu : 0 ≤ 1 - s - t := by linarith
  constructor
  · nlinarith [mul_nonneg hu (sub_nonneg.mpr hm1), mul_nonneg hs (sub_nonneg.mpr hm2),
      mul_nonneg ht (sub_nonneg.mpr hm3)]
  · nlinarith [mul_nonneg hu (sub_nonneg.mpr hM1), mul_nonneg hs (sub_nonneg.mpr hM2),
      mul_nonneg ht (sub_nonneg.mpr hM3)]

/-- Axis-aligned bounding box. -/
structure AABB where
  lo : Vec3
  hi : Vec3
deriving DecidableEq

def Vec3.vmin (u v : Vec3) : Vec3 := ⟨min u.x v.x, min u.y v.y, min u.z v.z⟩

def Vec3.vmax (u v : Vec3) : Vec3 := ⟨max u.x v.x, max u.y v.y, max u.z v.z⟩

/-- Bounding box of a single triangle. -/
def triAABB (a b c : Vec3) : AABB := ⟨(a.vmin b).vmin c, (a.vmax b).vmax c⟩

/-- Membership of a point in an axis-aligned box. -/
def inAABB (v : Vec3) (b : AABB) : Prop :=
  b.lo.x ≤ v.x ∧ v.x ≤ b.hi.x ∧ b.lo.y ≤ v.y ∧ v.y ≤ b.hi.y ∧ b.lo.z ≤ v.z ∧ v.z ≤ b.hi.z

theorem closestPtSeg_in_triAABB (p a b c : Vec3) :
    inAABB (closestPtSeg p a b) (triAABB a b c) := by
  unfold closestPtSeg triAABB inAABB
  simp only [Vec3.add, Vec3.smul, Vec3.sub, Vec3.vmin, Vec3.vmax]
  set t := clamp01 (Vec3.dot (p.sub a) (b.sub a) / Vec3.sqnorm (b.sub a)) with ht
  have h0 := clamp01_nonneg (Vec3.dot (p.sub a) (b.sub a) / Vec3.sqnorm (b.sub a))
  have h1 := clamp01_le_one (Vec3.dot (p.sub a) (b.sub a) / Vec3.sqnorm (b.sub a))
  rw [← ht] at h0 h1
  have hx := affine_coord_bounds a.x b.x t h0 h1
  have hy := affine_coord_bounds a.y b.y t h0 h1
  have hz := affine_coord_bounds a.z b.z t h0 h1
  refine ⟨?_, ?_, ?_, ?_, ?_, ?_⟩
  · exact le_trans (min_le_left _ _) hx.1
  · exact le_trans hx.2 (le_max_left _ _)
  · exact le_trans (min_le_left _ _) hy.1
  · exact le_trans hy.2 (le_max_left _ _)
  · exact le_trans (min_le_left _ _) hz.1
  · exact le_trans hz.2 (le_max_left _ _)

theorem closestPtTriEdges_cases (p a b c : Vec3) :
    closestPtTriEdges p a b c = closestPtSeg p a b ∨
      closestPtTriEdges p a b c = closestPtSeg p b c ∨
      closestPtTriEdges p a b c = closestPtSeg p a c := by
  unfold closestPtTriEdges
  split
  · split
    · exact Or.inr (Or.inr rfl)
    · exact Or.inr (Or.inl rfl)
  · split
    · exact Or.inr (Or.inr rfl)
    · exact Or.inl rfl

theorem min3_rot (a b c : ℚ) : min (min b c) a = min (min a b) c := by
  rw [min_comm (min b c) a, ← min_assoc]

theorem max3_rot (a b c : ℚ) : max (max b c) a = max (max a b) c := by
  rw [max_comm (max b c) a, ← max_assoc]

theorem min3_swap23 (a b c : ℚ) : min (min a c) b = min (min a b) c := by
  rw [min_assoc, min_comm c b, ← min_assoc]

theorem max3_swap23 (a b c : ℚ) : max (max a c) b = max (max a b) c := by
  rw [max_assoc, max_comm c b, ← max_assoc]

theorem triAABB_perm12 (v : Vec3) (a b c : Vec3) :
    inAABB v (triAABB b c a) → inAABB v (triAABB a b c) := by
  unfold inAABB triAABB
  simp only [Vec3.vmin, Vec3.vmax]
  intro h
  obtain ⟨h1, h2, h3, h4, h5, h6⟩ := h
  rw [min3_rot] at h1 h3 h5
  rw [max3_rot] at h2 h4 h6
  exact ⟨h1, h2, h3, h4, h5, h6⟩

theorem triAABB_perm13 (v : Vec3) (a b c : Vec3) :
    inAABB v (triAABB a c b) → inAABB v (triAABB a b c) := by
  unfold inAABB triAABB
  simp only [Vec3.vmin, Vec3.vmax]
  intro h
  obtain ⟨h1, h2, h3, h4, h5, h6⟩ := h
  rw [min3_swap23] at h1 h3 h5
  rw [max3_swap23] at h2 h4 h6
  exact ⟨h1, h2, h3, h4, h5, h6⟩

theorem closestPtTriEdges_in_triAABB (p a b c : Vec3) :
    inAABB (closestPtTriEdges p a b c) (triAABB a b c) := by
  rcases closestPtTriEdges_cases p a b c with h | h | h <;> rw [h]
  · exact closestPtSeg_in_triAABB p a b c
  · exact triAABB_perm12 _ a b c (closestPtSeg_in_triAABB p b c a)
  · exact triAABB_perm13 _ a b c (closestPtSeg_in_triAABB p a c b)

theorem closestPtTri_in_triAABB (p a b c : Vec3) :
    inAABB (closestPtTri p a b c) (triAABB a b c) := by
  unfold closestPtTri
  split
  · exact closestPtTriEdges_in_triAABB p a b c
  · split
    · rename_i hcond
      obtain ⟨hs, ht, hst⟩ := hcond
      unfold triAABB inAABB
      simp only [Vec3.add, Vec3.smul, Vec3.sub, Vec3.vmin, Vec3.vmax]
      have hx := convex3_coord_bounds a.x b.x c.x _ _ hs ht hst
      have hy := convex3_coord_bounds a.y b.y c.y _ _ hs ht hst
      have hz := convex3_coord_bounds a.z b.z c.z _ _ hs ht hst
      exact ⟨by linarith [hx.1], by linarith [hx.2], by linarith [hy.1],
        by linarith [hy.2], by linarith [hz.1], by linarith [hz.2]⟩
    · exact closestPtTriEdges_in_triAABB p a b c

/-- Triangulated surface mesh: ordered vertex positions and ordered
triangles given as index triples into the vertex list. -/
structure Mesh where
  vertices : List Vec3
  faces : List (Nat × Nat × Nat)
deriving DecidableEq

def Mesh.vert (m : Mesh) (i : Nat) : Vec3 := m.vertices.getD i Vec3.zero

def Mesh.tri (m : Mesh) (i : Nat) : Vec3 × Vec3 × Vec3 :=
  (m.vert (m.faces.getD i (0, 0, 0)).1,
   m.vert (m.faces.getD i (0, 0, 0)).2.1,
   m.vert (m.faces.getD i (0, 0, 0)).2.2)

def Mesh.numFaces (m : Mesh) : Nat := m.faces.length

/-- Error kinds reported synchronously by the query layer. -/
inductive QueryError where
  | invalidMesh
  | emptyMesh
  | degenerateRay
  | invalidRadius
deriving DecidableEq

/-- Squared point-to-triangle distance for the mesh triangle at index `i`. -/
def triDistSqIdx (m : Mesh) (p : Vec3) (i : Nat) : ℚ :=
  pointTriDistSq p (m.tri i).1 (m.tri i).2.1 (m.tri i).2.2

/-- Bounding box of the mesh triangle at index `i`. -/
def triBoxIdx (m : Mesh) (i : Nat) : AABB :=
  triAABB (m.tri i).1 (m.tri i).2.1 (m.tri i).2.2

def AABB.merge (b1 b2 : AABB) : AABB := ⟨b1.lo.vmin b2.lo, b1.hi.vmax b2.hi⟩

theorem inAABB_merge_left (v : Vec3) (b1 b2 : AABB) (h : inAABB v b1) :
    inAABB v (b1.merge b2) := by
  obtain ⟨h1, h2, h3, h4, h5, h6⟩ := h
  unfold AABB.merge inAABB
  simp only [Vec3.vmin, Vec3.vmax]
  exact ⟨le_trans (min_le_left _ _) h1, le_trans h2 (le_max_left _ _),
    le_trans (min_le_left _ _) h3, le_trans h4 (le_max_left _ _),
    le_trans (min_le_left _ _) h5, le_trans h6 (le_max_left _ _)⟩

theorem inAABB_merge_right (v : Vec3) (b1 b2 : AABB) (h : inAABB v b2) :
    inAABB v (b1.merge b2) := by
  obtain ⟨h1, h2, h3, h4, h5, h6⟩ := h
  unfold AABB.merge inAABB
  simp only [Vec3.vmin, Vec3.vmax]
  exact ⟨le_trans (min_le_right _ _) h1, le_trans h2 (le_max_right _ _),
    le_trans (min_le_right _ _) h3, le_trans h4 (le_max_right _ _),
    le_trans (min_le_right _ _) h5, le_trans h6 (le_max_right _ _)⟩

/-- Bounding box enclosing the listed mesh triangles. -/
def boxOfTris (m : Mesh) : List Nat → AABB
  | [] => ⟨Vec3.zero, Vec3.zero⟩
  | [i] => triBoxIdx m i
  | i :: j :: rest => (triBoxIdx m i).merge (boxOfTris m (j :: rest))

theorem boxOfTris_contains (m : Mesh) (l : List Nat) (i : Nat) (hi : i ∈ l)
    (v : Vec3) (hv : inAABB v (triBoxIdx m i)) : inAABB v (boxOfTris m l) := by
  induction l with
  | nil => cases hi
  | cons hd tl ih =>
    cases tl with
    | nil =>
      rcases List.mem_singleton.mp hi with rfl
      exact hv
    | cons hd2 tl2 =>
      rcases List.mem_cons.mp hi with rfl | hmem
      · exact inAABB_merge_left v _ _ hv
      · exact inAABB_merge_right v _ _ (ih hmem)

/-- Per-axis contribution to the squared point-to-box distance. -/
def axisGapSq (p lo hi : ℚ) : ℚ :=
  if p < lo then (lo - p) * (lo - p) else if hi < p then (p - hi) * (p - hi) else 0

/-- Lower bound on the squared distance from a point to anything inside a box. -/
def sqDistAABB (p : Vec3) (b : AABB) : ℚ :=
  axisGapSq p.x b.lo.x b.hi.x + axisGapSq p.y b.lo.y b.hi.y + axisGapSq p.z b.lo.z b.hi.z

theorem axisGapSq_le (p lo hi q : ℚ) (h1 : lo ≤ q) (h2 : q ≤ hi) :
    axisGapSq p lo hi ≤ (p - q) * (p - q) := by
  unfold axisGapSq
  split
  · nlinarith
  · split
    · nlinarith
    · exact mul_self_nonneg _

theorem sqDistAABB_le (p q : Vec3) (b : AABB) (h : inAABB q b) :
    sqDistAABB p b ≤ Vec3.sqnorm (p.sub q) := by
  obtain ⟨h1, h2, h3, h4, h5, h6⟩ := h
  have hx := axisGapSq_le p.x b.lo.x b.hi.x q.x h1 h2
  have hy := axisGapSq_le p.y b.lo.y b.hi.y q.y h3 h4
  have hz := axisGapSq_le p.z b.lo.z b.hi.z q.z h5 h6
  unfold sqDistAABB Vec3.sqnorm Vec3.dot Vec3.sub
  simp only
  linarith

/-- Soundness of the branch-and-bound lower bound: the squared distance to
the box of a triangle list bounds the exact squared distance to each of
its triangles from below. -/
theorem boxDist_le_triDist (m : Mesh) (p : Vec3) (l : List Nat) (i : Nat)
    (hi : i ∈ l) : sqDistAABB p (boxOfTris m l) ≤ triDistSqIdx m p i := by
  have hmem : inAABB (closestPtTri p (m.tri i).1 (m.tri i).2.1 (m.tri i).2.2)
      (triBoxIdx m i) := closestPtTri_in_triAABB p _ _ _
  have hbox := boxOfTris_contains m l i hi _ hmem
  have := sqDistAABB_le p (closestPtTri p (m.tri i).1 (m.tri i).2.1 (m.tri i).2.2)
    (boxOfTris m l) hbox
  unfold triDistSqIdx pointTriDistSq
  exact this

/-- Bounding-volume hierarchy over mesh triangles: internal nodes carry a
bounding box, leaves carry the indices of the triangles they hold. -/
inductive BVH where
  | leaf (ts : List Nat)
  | node (box : AABB) (left : BVH) (right : BVH)
deriving DecidableEq

def BVH.tris : BVH → List Nat
  | .leaf ts => ts
  | .node _ l r => l.tris ++ r.tris

/-- Well-formedness: every internal node's box is a sound lower bound for
the exact distance to each triangle stored in its subtree. -/
def BVH.WF (m : Mesh) : BVH → Prop
  | .leaf _ => True
  | .node box l r =>
      (∀ p : Vec3, ∀ i ∈ l.tris ++ r.tris, sqDistAABB p box ≤ triDistSqIdx m p i) ∧
        l.WF m ∧ r.WF m

def axisCoord (v : Vec3) (ax : Nat) : ℚ :=
  match ax with
  | 0 => v.x
  | 1 => v.y
  | _ => v.z

/-- Three times the centroid coordinate of triangle `i` along axis `ax`. -/
def centroid3 (m : Mesh) (ax : Nat) (i : Nat) : ℚ :=
  axisCoord (m.tri i).1 ax + axisCoord (m.tri i).2.1 ax + axisCoord (m.tri i).2.2 ax

def longestAxis (b : AABB) : Nat :=
  if b.hi.y - b.lo.y ≤ b.hi.x - b.lo.x ∧ b.hi.z - b.lo.z ≤ b.hi.x - b.lo.x then 0
  else if b.hi.z - b.lo.z ≤ b.hi.y - b.lo.y then 1
  else 2

/-- Predicate of the spatial-median split: does the centroid of triangle
`i` lie at or below the midpoint of the box of `l` along its longest
axis?  Scaled by six to stay in integer-friendly rational arithmetic. -/
def splitMid (m : Mesh) (l : List Nat) (i : Nat) : Bool :=
  decide (centroid3 m (longestAxis (boxOfTris m l)) i * 2 ≤
    (axisCoord (boxOfTris m l).lo (longestAxis (boxOfTris m l)) +
      axisCoord (boxOfTris m l).hi (longestAxis (boxOfTris m l))) * 3)

/-- Spatial-median partition of a triangle index list, falling back to a
positional half split when every centroid lands on one side; ties keep
triangle insertion order. -/
def splitTris (m : Mesh) (l : List Nat) : List Nat × List Nat :=
  if (l.filter (splitMid m l)).length = 0 ∨
      (l.filter (fun i => ! splitMid m l i)).length = 0 then
    (l.take (l.length / 2), l.drop (l.length / 2))
  else (l.filter (splitMid m l), l.filter (fun i => ! splitMid m l i))

theorem splitTris_perm (m : Mesh) (l : List Nat) :
    List.Perm ((splitTris m l).1 ++ (splitTris m l).2) l := by
  unfold splitTris
  split
  · rw [List.take_append_drop]
  · exact List.filter_append_perm _ l

theorem splitTris_lengths (m : Mesh) (l : List Nat) (h : 4 < l.length) :
    (splitTris m l).1.length < l.length ∧ (splitTris m l).2.length < l.length := by
  by_cases hc : (l.filter (splitMid m l)).length = 0 ∨
      (l.filter (fun i => ! splitMid m l i)).length = 0
  · simp only [splitTris, if_pos hc, List.length_take, List.length_drop]
    omega
  · have hsum : (l.filter (splitMid m l)).length +
        (l.filter (fun i => ! splitMid m l i)).length = l.length := by
      have := (List.filter_append_perm (splitMid m l) l).length_eq
      simpa [List.length_append] using this
    push_neg at hc
    simp only [splitTris, if_neg (not_or.mpr ⟨hc.1, hc.2⟩)]
    omega

/-- Recursion core of the hierarchy construction; the fuel argument is a
structural bound on the recursion depth, instantiated with the list
length so that it never runs out. -/
def buildBVHAux (m : Mesh) : Nat → List Nat → BVH
  | 0, l => .leaf l
  | fuel + 1, l =>
    if l.length ≤ 4 then .leaf l
    else
      BVH.node (boxOfTris m l) (buildBVHAux m fuel (splitTris m l).1)
        (buildBVHAux m fuel (splitTris m l).2)

/-- Recursive spatial-median construction of the bounding-volume
hierarchy, stopping at a leaf threshold of four triangles. -/
def buildBVH (m : Mesh) (l : List Nat) : BVH := buildBVHAux m l.length l

theorem buildBVHAux_tris_perm (m : Mesh) :
    ∀ (n : Nat) (l : List Nat), l.length ≤ n → List.Perm (buildBVHAux m n l).tris l := by
  intro n
  induction n with
  | zero =>
    intro l hl
    exact List.Perm.refl l
  | succ k ih =>
    intro l hl
    by_cases hc : l.length ≤ 4
    · show (if l.length ≤ 4 then BVH.leaf l else _).tris.Perm l
      rw [if_pos hc]
      exact List.Perm.refl l
    · show (if l.length ≤ 4 then BVH.leaf l else _).tris.Perm l
      rw [if_neg hc]
      have hs := splitTris_lengths m l (by omega)
      have p1 := ih (splitTris m l).1 (by omega)
      have p2 := ih (splitTris m l).2 (by omega)
      exact (p1.append p2).trans (splitTris_perm m l)

theorem buildBVH_tris_perm (m : Mesh) (l : List Nat) : List.Perm (buildBVH m l).tris l :=
  buildBVHAux_tris_perm m l.length l le_rfl

theorem buildBVHAux_WF (m : Mesh) :
    ∀ (n : Nat) (l : List Nat), l.length ≤ n → (buildBVHAux m n l).WF m := by
  intro n
  induction n with
  | zero =>
    intro l hl
    trivial
  | succ k ih =>
    intro l hl
    by_cases hc : l.length ≤ 4
    · show (if l.length ≤ 4 then BVH.leaf l else _).WF m
      rw [if_pos hc]
      trivial
    · show (if l.length ≤ 4 then BVH.leaf l else _).WF m
      rw [if_neg hc]
      have hs := splitTris_lengths m l (by omega)
      refine ⟨?_, ih (splitTris m l).1 (by omega), ih (splitTris m l).2 (by omega)⟩
      intro p i hi
      have hperm : List.Perm ((buildBVHAux m k (splitTris m l).1).tris ++
          (buildBVHAux m k (splitTris m l).2).tris) l :=
        ((buildBVHAux_tris_perm m k (splitTris m l).1 (by omega)).append
          (buildBVHAux_tris_perm m k (splitTris m l).2 (by omega))).trans (splitTris_perm m l)
      exact boxDist_le_triDist m p l i (hperm.mem_iff.mp hi)

theorem buildBVH_WF (m : Mesh) (l : List Nat) : (buildBVH m l).WF m :=
  buildBVHAux_WF m l.length l le_rfl

/-- Update of the running best candidate during the nearest-triangle
search: a candidate replaces the best on strictly smaller squared
distance, ties broken by the lower triangle index. -/
def updBest (best cand : ℚ × Nat) : ℚ × Nat :=
  if cand.1 < best.1 ∨ (cand.1 = best.1 ∧ cand.2 < best.2) then cand else best

/-- Exhaustive scan of a list of triangle indices, updating the best
candidate with the exact point-to-triangle distance of each. -/
def foldBest (m : Mesh) (p : Vec3) (acc : ℚ × Nat) (l : List Nat) : ℚ × Nat :=
  l.foldl (fun b i => updBest b (triDistSqIdx m p i, i)) acc

/-- Branch-and-bound traversal: prune a subtree when the lower bound on
the point-to-box distance exceeds the current best; at leaves compute
exact point-to-triangle distances. -/
def bnb (m : Mesh) (p : Vec3) : BVH → ℚ × Nat → ℚ × Nat
  | .leaf ts, acc => foldBest m p acc ts
  | .node box l r, acc =>
      if acc.1 < sqDistAABB p box then acc else bnb m p r (bnb m p l acc)

theorem updBest_fst (b c : ℚ × Nat) : (updBest b c).1 = min b.1 c.1 := by
  unfold updBest
  split
  · rename_i hcond
    rcases hcond with hlt | ⟨heq, _⟩
    · rw [min_eq_right hlt.le]
    · rw [heq, min_self]
  · rename_i hcond
    push_neg at hcond
    rw [min_eq_left hcond.1]

theorem foldBest_fst_le_acc (m : Mesh) (p : Vec3) (l : List Nat) :
    ∀ acc, (foldBest m p acc l).1 ≤ acc.1 := by
  induction l with
  | nil => intro acc; exact le_refl _
  | cons hd tl ih =>
    intro acc
    have h1 := ih (updBest acc (triDistSqIdx m p hd, hd))
    have h2 := updBest_fst acc (triDistSqIdx m p hd, hd)
    unfold foldBest at *
    simp only [List.foldl_cons]
    exact le_trans h1 (by rw [h2]; exact min_le_left _ _)

theorem foldBest_le_mem (m : Mesh) (p : Vec3) (l : List Nat) :
    ∀ acc, ∀ i ∈ l, (foldBest m p acc l).1 ≤ triDistSqIdx m p i := by
  induction l with
  | nil => intro acc i hi; cases hi
  | cons hd tl ih =>
    intro acc i hi
    rcases List.mem_cons.mp hi with rfl | hmem
    · have h1 := foldBest_fst_le_acc m p tl (updBest acc (triDistSqIdx m p i, i))
      have h2 := updBest_fst acc (triDistSqIdx m p i, i)
      unfold foldBest at *
      simp only [List.foldl_cons]
      exact le_trans h1 (by rw [h2]; exact min_le_right _ _)
    · have h1 := ih (updBest acc (triDistSqIdx m p hd, hd)) i hmem
      unfold foldBest at *
      simp only [List.foldl_cons]
      exact h1

theorem updBest_cases (b c : ℚ × Nat) : updBest b c = b ∨ updBest b c = c := by
  unfold updBest
  split
  · exact Or.inr rfl
  · exact Or.inl rfl

theorem foldBest_attained (m : Mesh) (p : Vec3) (l : List Nat) :
    ∀ acc, foldBest m p acc l = acc ∨
      ((foldBest m p acc l).2 ∈ l ∧
        (foldBest m p acc l).1 = triDistSqIdx m p (foldBest m p acc l).2) := by
  induction l with
  | nil => intro acc; exact Or.inl rfl
  | cons hd tl ih =>
    intro acc
    have step : foldBest m p acc (hd :: tl) =
        foldBest m p (updBest acc (triDistSqIdx m p hd, hd)) tl := by
      unfold foldBest
      simp only [List.foldl_cons]
    rcases ih (updBest acc (triDistSqIdx m p hd, hd)) with heq | ⟨hmem, hval⟩
    · rcases updBest_cases acc (triDistSqIdx m p hd, hd) with hb | hc
      · exact Or.inl (by rw [step, heq, hb])
      · refine Or.inr ⟨?_, ?_⟩
        · rw [step, heq, hc]
          exact List.mem_cons_self hd tl
        · rw [step, heq, hc]
    · right
      constructor
      · rw [step]
        exact List.mem_cons_of_mem hd hmem
      · rw [step]
        exact hval

theorem foldBest_prune (m : Mesh) (p : Vec3) (l : List Nat) :
    ∀ acc, (∀ i ∈ l, acc.1 < triDistSqIdx m p i) → foldBest m p acc l = acc := by
  induction l with
  | nil => intro acc _; rfl
  | cons hd tl ih =>
    intro acc hall
    have hhd : acc.1 < triDistSqIdx m p hd := hall hd (List.mem_cons_self hd tl)
    have hupd : updBest acc (triDistSqIdx m p hd, hd) = acc := by
      unfold updBest
      rw [if_neg]
      rintro (hlt | ⟨heq, _⟩)
      · exact absurd hlt (not_lt.mpr hhd.le)
      · exact absurd heq (ne_of_gt hhd)
    have step : foldBest m p acc (hd :: tl) =
        foldBest m p (updBest acc (triDistSqIdx m p hd, hd)) tl := by
      unfold foldBest
      simp only [List.foldl_cons]
    rw [step, hupd]
    exact ih acc (fun i hi => hall i (List.mem_cons_of_mem hd hi))

theorem foldBest_append (m : Mesh) (p : Vec3) (l1 l2 : List Nat) (acc : ℚ × Nat) :
    foldBest m p acc (l1 ++ l2) = foldBest m p (foldBest m p acc l1) l2 := by
  unfold foldBest
  rw [List.foldl_append]

/-- The branch-and-bound traversal of a well-formed hierarchy computes
the same best candidate as the exhaustive scan of its triangles. -/
theorem bnb_eq_foldBest (m : Mesh) (p : Vec3) :
    ∀ (t : BVH), t.WF m → ∀ acc, bnb m p t acc = foldBest m p acc t.tris := by
  intro t
  induction t with
  | leaf ts => intro _ acc; rfl
  | node box lt rt ihl ihr =>
    intro hwf acc
    obtain ⟨hbox, hwl, hwr⟩ := hwf
    show (if acc.1 < sqDistAABB p box then acc else bnb m p rt (bnb m p lt acc)) =
      foldBest m p acc (lt.tris ++ rt.tris)
    rw [foldBest_append]
    by_cases hprune : acc.1 < sqDistAABB p box
    · rw [if_pos hprune]
      have hl : foldBest m p acc lt.tris = acc := by
        refine foldBest_prune m p lt.tris acc (fun i hi => ?_)
        exact lt_of_lt_of_le hprune (hbox p i (List.mem_append_left _ hi))
      have hr : foldBest m p acc rt.tris = acc := by
        refine foldBest_prune m p rt.tris acc (fun i hi => ?_)
        exact lt_of_lt_of_le hprune (hbox p i (List.mem_append_right _ hi))
      rw [hl, hr]
    · rw [if_neg hprune, ihl hwl acc, ihr hwr (foldBest m p acc lt.tris)]

deriving instance DecidableEq for Except

/-- Result record of a nearest-surface query: closest point on the mesh,
squared distance, and owning triangle index. -/
structure NearestRes where
  closest : Vec3
  distSq : ℚ
  triId : Nat
deriving DecidableEq

def closestPtTriIdx (m : Mesh) (p : Vec3) (i : Nat) : Vec3 :=
  closestPtTri p (m.tri i).1 (m.tri i).2.1 (m.tri i).2.2

/-- Single-point nearest-surface query by branch-and-bound over a
prebuilt hierarchy, seeded with triangle 0. -/
def nearestOne (m : Mesh) (t : BVH) (p : Vec3) : NearestRes :=
  ⟨closestPtTriIdx m p (bnb m p t (triDistSqIdx m p 0, 0)).2,
   (bnb m p t (triDistSqIdx m p 0, 0)).1,
   (bnb m p t (triDistSqIdx m p 0, 0)).2⟩

/-- A mesh together with the spatial index built over it; the index is
owned by the mesh and read-only afterwards. -/
structure MeshState where
  mesh : Mesh
  index : BVH
deriving DecidableEq

def buildState (m : Mesh) : MeshState := ⟨m, buildBVH m (List.range m.numFaces)⟩

/-- Stateful form of the nearest-surface query: it threads the mesh
state explicitly and returns it unchanged. -/
def nearestOnSurfaceSt (s : MeshState) (pts : List Vec3) :
    Except QueryError (List NearestRes) × MeshState :=
  (if s.mesh.faces = [] then Except.error QueryError.emptyMesh
   else Except.ok (pts.map (nearestOne s.mesh s.index)), s)

/-- Modelled from the spec: `mesh.nearest.on_surface` of the external
library is absent from the repository; per the contract it returns one
result per input point and fails with the empty-mesh error when the mesh
has zero triangles. -/
def nearestOnSurface (m : Mesh) (pts : List Vec3) : Except QueryError (List NearestRes) :=
  (nearestOnSurfaceSt (buildState m) pts).1

theorem nearestOne_correct (m : Mesh) (p : Vec3) (hm : m.faces ≠ []) :
    (∀ i, i < m.numFaces →
        (nearestOne m (buildBVH m (List.range m.numFaces)) p).distSq ≤ triDistSqIdx m p i) ∧
      ∃ i, i < m.numFaces ∧
        (nearestOne m (buildBVH m (List.range m.numFaces)) p).distSq = triDistSqIdx m p i := by
  have hwf := buildBVH_WF m (List.range m.numFaces)
  have hperm := buildBVH_tris_perm m (List.range m.numFaces)
  have heq := bnb_eq_foldBest m p (buildBVH m (List.range m.numFaces)) hwf (triDistSqIdx m p 0, 0)
  have hn : 0 < m.numFaces := by
    unfold Mesh.numFaces
    cases hf : m.faces with
    | nil => exact absurd hf hm
    | cons a l => simp
  constructor
  · intro i hi
    have hmem : i ∈ (buildBVH m (List.range m.numFaces)).tris :=
      hperm.mem_iff.mpr (List.mem_range.mpr hi)
    show (bnb m p (buildBVH m (List.range m.numFaces)) (triDistSqIdx m p 0, 0)).1 ≤
      triDistSqIdx m p i
    rw [heq]
    exact foldBest_le_mem m p (buildBVH m (List.range m.numFaces)).tris
      (triDistSqIdx m p 0, 0) i hmem
  · rcases foldBest_attained m p (buildBVH m (List.range m.numFaces)).tris
        (triDistSqIdx m p 0, 0) with hacc | ⟨hmem, hval⟩
    · refine ⟨0, hn, ?_⟩
      show (bnb m p (buildBVH m (List.range m.numFaces)) (triDistSqIdx m p 0, 0)).1 =
        triDistSqIdx m p 0
      rw [heq, hacc]
    · refine ⟨(foldBest m p (triDistSqIdx m p 0, 0)
          (buildBVH m (List.range m.numFaces)).tris).2, ?_, ?_⟩
      · exact List.mem_range.mp (hperm.mem_iff.mp hmem)
      · show (bnb m p (buildBVH m (List.range m.numFaces)) (triDistSqIdx m p 0, 0)).1 =
          triDistSqIdx m p (foldBest m p (triDistSqIdx m p 0, 0)
            (buildBVH m (List.range m.numFaces)).tris).2
        rw [heq]
        exact hval

/-- C1: over a mesh with at least one triangle, `nearestOnSurface`
succeeds with one result per input point, and for every input point the
returned Euclidean distance is a lower bound of, and is attained by, the
exact Euclidean point-to-triangle distances over all triangles of the
mesh — i.e. it equals their minimum. -/
theorem nearestOnSurface_distance_is_min (m : Mesh) (pts : List Vec3) (hm : m.faces ≠ []) :
    ∃ rs, nearestOnSurface m pts = Except.ok rs ∧ rs.length = pts.length ∧
      ∀ j, j < pts.length →
        (∀ i, i < m.numFaces →
            Real.sqrt ((rs.getD j ⟨Vec3.zero, 0, 0⟩).distSq : ℝ) ≤
              Real.sqrt ((triDistSqIdx m (pts.getD j Vec3.zero) i : ℝ))) ∧
          ∃ i, i < m.numFaces ∧
            Real.sqrt ((rs.getD j ⟨Vec3.zero, 0, 0⟩).distSq : ℝ) =
              Real.sqrt ((triDistSqIdx m (pts.getD j Vec3.zero) i : ℝ)) := by
  refine ⟨pts.map (nearestOne m (buildBVH m (List.range m.numFaces))), ?_, by simp, ?_⟩
  · unfold nearestOnSurface nearestOnSurfaceSt buildState
    simp only [if_neg hm]
  · intro j hj
    have hget : (pts.map (nearestOne m (buildBVH m (List.range m.numFaces)))).getD j
        ⟨Vec3.zero, 0, 0⟩ =
        nearestOne m (buildBVH m (List.range m.numFaces)) (pts.getD j Vec3.zero) := by
      rw [List.getD_eq_getElem _ _ (by simpa using hj), List.getElem_map,
        List.getD_eq_getElem _ _ hj]
    rw [hget]
    obtain ⟨hle, i, hi, heq⟩ := nearestOne_correct m (pts.getD j Vec3.zero) hm
    constructor
    · intro i2 hi2
      exact Real.sqrt_le_sqrt (by exact_mod_cast hle i2 hi2)
    · exact ⟨i, hi, by rw [heq]⟩

/-- Closed witness instantiating C1 on a one-triangle mesh and one query point. -/
theorem nearestOnSurface_distance_is_min_witness :
    ∃ rs,
      nearestOnSurface ⟨[⟨0, 0, 0⟩, ⟨1, 0, 0⟩, ⟨0, 1, 0⟩], [(0, 1, 2)]⟩ [⟨0, 0, 1⟩] =
          Except.ok rs ∧
        rs.length = [(⟨0, 0, 1⟩ : Vec3)].length ∧
        ∀ j, j < [(⟨0, 0, 1⟩ : Vec3)].length →
          (∀ i, i < Mesh.numFaces ⟨[⟨0, 0, 0⟩, ⟨1, 0, 0⟩, ⟨0, 1, 0⟩], [(0, 1, 2)]⟩ →
              Real.sqrt ((rs.getD j ⟨Vec3.zero, 0, 0⟩).distSq : ℝ) ≤
                Real.sqrt ((triDistSqIdx ⟨[⟨0, 0, 0⟩, ⟨1, 0, 0⟩, ⟨0, 1, 0⟩], [(0, 1, 2)]⟩
                  ([(⟨0, 0, 1⟩ : Vec3)].getD j Vec3.zero) i : ℝ))) ∧
            ∃ i, i < Mesh.numFaces ⟨[⟨0, 0, 0⟩, ⟨1, 0, 0⟩, ⟨0, 1, 0⟩], [(0, 1, 2)]⟩ ∧
              Real.sqrt ((rs.getD j ⟨Vec3.zero, 0, 0⟩).distSq : ℝ) =
                Real.sqrt ((triDistSqIdx ⟨[⟨0, 0, 0⟩, ⟨1, 0, 0⟩, ⟨0, 1, 0⟩], [(0, 1, 2)]⟩
                  ([(⟨0, 0, 1⟩ : Vec3)].getD j Vec3.zero) i : ℝ)) :=
  nearestOnSurface_distance_is_min ⟨[⟨0, 0, 0⟩, ⟨1, 0, 0⟩, ⟨0, 1, 0⟩], [(0, 1, 2)]⟩
    [⟨0, 0, 1⟩] (by decide)

/-- C2: on a mesh with zero triangles, `nearestOnSurface` reports the
empty-mesh error for every input point set. -/
theorem nearestOnSurface_empty_mesh (m : Mesh) (pts : List Vec3) (hm : m.faces = []) :
    nearestOnSurface m pts = Except.error QueryError.emptyMesh := by
  unfold nearestOnSurface nearestOnSurfaceSt buildState
  simp [hm]

/-- Closed witness instantiating C2 on an empty mesh and a nonempty point set. -/
theorem nearestOnSurface_empty_mesh_witness :
    nearestOnSurface ⟨[], []⟩ [⟨1, 2, 3⟩] = Except.error QueryError.emptyMesh :=
  nearestOnSurface_empty_mesh ⟨[], []⟩ [⟨1, 2, 3⟩] rfl

theorem nearestOne_distSq_nonneg (m : Mesh) (t : BVH) (p : Vec3) (hwf : t.WF m) :
    0 ≤ (nearestOne m t p).distSq := by
  have heq := bnb_eq_foldBest m p t hwf (triDistSqIdx m p 0, 0)
  show 0 ≤ (bnb m p t (triDistSqIdx m p 0, 0)).1
  rw [heq]
  rcases foldBest_attained m p t.tris (triDistSqIdx m p 0, 0) with hacc | ⟨_, hval⟩
  · rw [hacc]
    exact pointTriDistSq_nonneg p _ _ _
  · rw [hval]
    exact pointTriDistSq_nonneg p _ _ _

/-- C8: the nearest-surface distance computation is total and
non-negative on every input, and a degenerate (zero-area) triangle is
handled as a line segment or point fallback rather than crashing. -/
theorem nearest_distance_total (m : Mesh) (pts : List Vec3) (rs : List NearestRes)
    (h : nearestOnSurface m pts = Except.ok rs) :
    (∀ r ∈ rs, 0 ≤ r.distSq ∧ 0 ≤ Real.sqrt (r.distSq : ℝ)) ∧
      ∀ p a b c : Vec3, Vec3.cross (b.sub a) (c.sub a) = Vec3.zero →
        pointTriDistSq p a b c =
          min (segDistSq p a b) (min (segDistSq p b c) (segDistSq p a c)) := by
  constructor
  · intro r hr
    have hrs : rs = pts.map (nearestOne m (buildBVH m (List.range m.numFaces))) := by
      unfold nearestOnSurface nearestOnSurfaceSt buildState at h
      by_cases hm : m.faces = []
      · simp [hm] at h
      · simp only [if_neg hm] at h
        exact (Except.ok.inj h).symm
    subst hrs
    obtain ⟨p, _, rfl⟩ := List.mem_map.mp hr
    have hnn := nearestOne_distSq_nonneg m (buildBVH m (List.range m.numFaces)) p
      (buildBVH_WF m (List.range m.numFaces))
    exact ⟨hnn, Real.sqrt_nonneg _⟩
  · intro p a b c hdeg
    exact pointTriDistSq_degenerate p a b c hdeg

/-- Closed witness instantiating C8 on a mesh whose single triangle is
degenerate (three collinear vertices). -/
theorem nearest_distance_total_witness :
    (∀ r ∈ [(⟨⟨0, 0, 0⟩, 2, 0⟩ : NearestRes)], 0 ≤ r.distSq ∧ 0 ≤ Real.sqrt (r.distSq : ℝ)) ∧
      ∀ p a b c : Vec3, Vec3.cross (b.sub a) (c.sub a) = Vec3.zero →
        pointTriDistSq p a b c =
          min (segDistSq p a b) (min (segDistSq p b c) (segDistSq p a c)) :=
  nearest_distance_total ⟨[⟨0, 0, 0⟩, ⟨1, 0, 0⟩, ⟨2, 0, 0⟩], [(0, 1, 2)]⟩ [⟨0, 1, 1⟩]
    [⟨⟨0, 0, 0⟩, 2, 0⟩] (by decide)

/-- Configuration of the ray-intersection engine: return all hits per
ray, or only the first. -/
structure RayConfig where
  multipleHits : Bool
deriving DecidableEq

/-- Default configuration: first hit only, no hits behind the origin. -/
def defaultRayConfig : RayConfig := ⟨false⟩

def mtDet (d a b c : Vec3) : ℚ := Vec3.dot (b.sub a) (d.cross (c.sub a))

def mtU (o d a b c : Vec3) : ℚ :=
  Vec3.dot (o.sub a) (d.cross (c.sub a)) / mtDet d a b c

def mtV (o d a b c : Vec3) : ℚ :=
  Vec3.dot d ((o.sub a).cross (b.sub a)) / mtDet d a b c

def mtT (o d a b c : Vec3) : ℚ :=
  Vec3.dot (c.sub a) ((o.sub a).cross (b.sub a)) / mtDet d a b c

/-- Exact ray-triangle intersection (barycentric parametrization) over
the rationals: returns the ray parameter when the ray from `o` along `d`
meets triangle `a b c`, edges and vertices included; intersections
behind the origin (negative parameter) are excluded, and a zero
determinant (parallel ray or degenerate triangle) yields no hit. -/
def rayTriInter (o d a b c : Vec3) : Option ℚ :=
  if mtDet d a b c = 0 then none
  else
    if 0 ≤ mtU o d a b c ∧ 0 ≤ mtV o d a b c ∧ mtU o d a b c + mtV o d a b c ≤ 1 ∧
        0 ≤ mtT o d a b c then
      some (mtT o d a b c)
    else none

def rayTriInterIdx (m : Mesh) (o d : Vec3) (i : Nat) : Option ℚ :=
  rayTriInter o d (m.tri i).1 (m.tri i).2.1 (m.tri i).2.2

theorem rayTriInter_nonneg (o d a b c : Vec3) (t : ℚ)
    (h : rayTriInter o d a b c = some t) : 0 ≤ t := by
  unfold rayTriInter at h
  split at h
  · cases h
  · split at h
    · rename_i hcond
      obtain ⟨_, _, _, ht⟩ := hcond
      rw [← Option.some.inj h]
      exact ht
    · cases h

theorem rayTriInterIdx_nonneg (m : Mesh) (o d : Vec3) (i : Nat) (t : ℚ)
    (h : rayTriInterIdx m o d i = some t) : 0 ≤ t :=
  rayTriInter_nonneg o d _ _ _ t h

/-- Lexicographic comparison on (ray parameter, triangle index) pairs. -/
def lexLe (x y : ℚ × Nat) : Prop := x.1 < y.1 ∨ (x.1 = y.1 ∧ x.2 ≤ y.2)

theorem lexLe_refl (x : ℚ × Nat) : lexLe x x := Or.inr ⟨rfl, le_refl _⟩

theorem lexLe_trans (x y z : ℚ × Nat) (h1 : lexLe x y) (h2 : lexLe y z) : lexLe x z := by
  rcases h1 with h1 | ⟨e1, l1⟩ <;> rcases h2 with h2 | ⟨e2, l2⟩
  · exact Or.inl (h1.trans h2)
  · exact Or.inl (by rw [← e2]; exact h1)
  · exact Or.inl (by rw [e1]; exact h2)
  · exact Or.inr ⟨e1.trans e2, l1.trans l2⟩

theorem updBest_lexLe_left (b c : ℚ × Nat) : lexLe (updBest b c) b := by
  unfold updBest
  split
  · rename_i h
    rcases h with h | ⟨e, l⟩
    · exact Or.inl h
    · exact Or.inr ⟨e, l.le⟩
  · exact lexLe_refl b

theorem updBest_lexLe_right (b c : ℚ × Nat) : lexLe (updBest b c) c := by
  unfold updBest
  split
  · exact lexLe_refl c
  · rename_i h
    push_neg at h
    rcases lt_or_eq_of_le h.1 with hlt | heq
    · exact Or.inl hlt
    · exact Or.inr ⟨heq, h.2 heq.symm⟩

/-- One step of the first-hit scan over the triangles met so far. -/
def stepHit (m : Mesh) (o d : Vec3) (acc : Option (ℚ × Nat)) (i : Nat) : Option (ℚ × Nat) :=
  match rayTriInterIdx m o d i with
  | none => acc
  | some t =>
    match acc with
    | none => some (t, i)
    | some b => some (updBest b (t, i))

theorem stepHit_miss (m : Mesh) (o d : Vec3) (acc : Option (ℚ × Nat)) (i : Nat)
    (h : rayTriInterIdx m o d i = none) : stepHit m o d acc i = acc := by
  unfold stepHit
  rw [h]

theorem stepHit_hit_none (m : Mesh) (o d : Vec3) (i : Nat) (t : ℚ)
    (h : rayTriInterIdx m o d i = some t) : stepHit m o d none i = some (t, i) := by
  unfold stepHit
  rw [h]

theorem stepHit_hit_some (m : Mesh) (o d : Vec3) (i : Nat) (t : ℚ) (b : ℚ × Nat)
    (h : rayTriInterIdx m o d i = some t) :
    stepHit m o d (some b) i = some (updBest b (t, i)) := by
  unfold stepHit
  rw [h]

theorem stepHit_fold_some (m : Mesh) (o d : Vec3) (l : List Nat) :
    ∀ b : ℚ × Nat, ∃ r, l.foldl (stepHit m o d) (some b) = some r ∧
      (r = b ∨ (r.2 ∈ l ∧ rayTriInterIdx m o d r.2 = some r.1)) ∧
      lexLe r b ∧
      ∀ j ∈ l, ∀ u, rayTriInterIdx m o d j = some u → lexLe r (u, j) := by
  induction l with
  | nil =>
    intro b
    refine ⟨b, rfl, Or.inl rfl, lexLe_refl b, ?_⟩
    intro j hj
    cases hj
  | cons hd tl ih =>
    intro b
    cases hh : rayTriInterIdx m o d hd with
    | none =>
      obtain ⟨r, hr, hmem, hle, hmin⟩ := ih b
      refine ⟨r, ?_, ?_, hle, ?_⟩
      · rw [List.foldl_cons, stepHit_miss m o d (some b) hd hh]
        exact hr
      · rcases hmem with heq | hin
        · exact Or.inl heq
        · exact Or.inr ⟨List.mem_cons_of_mem hd hin.1, hin.2⟩
      · intro j hj u hu
        rcases List.mem_cons.mp hj with rfl | hjtl
        · rw [hh] at hu
          cases hu
        · exact hmin j hjtl u hu
    | some t =>
      obtain ⟨r, hr, hmem, hle, hmin⟩ := ih (updBest b (t, hd))
      refine ⟨r, ?_, ?_, ?_, ?_⟩
      · rw [List.foldl_cons, stepHit_hit_some m o d hd t b hh]
        exact hr
      · rcases hmem with heq | hin
        · rcases updBest_cases b (t, hd) with hbb | hbc
          · exact Or.inl (heq.trans hbb)
          · refine Or.inr ⟨?_, ?_⟩
            · rw [heq, hbc]
              exact List.mem_cons_self hd tl
            · rw [heq, hbc]
              exact hh
        · exact Or.inr ⟨List.mem_cons_of_mem hd hin.1, hin.2⟩
      · exact lexLe_trans _ _ _ hle (updBest_lexLe_left b (t, hd))
      · intro j hj u hu
        rcases List.mem_cons.mp hj with heqj | hjtl
        · rw [heqj] at hu
          have hu0 : u = t := Option.some.inj (hh.symm.trans hu).symm
          rw [heqj, hu0]
          exact lexLe_trans _ _ _ hle (updBest_lexLe_right b (t, hd))
        · exact hmin j hjtl u hu

theorem stepHit_fold_none_spec (m : Mesh) (o d : Vec3) (l : List Nat) :
    (l.foldl (stepHit m o d) none = none → ∀ j ∈ l, rayTriInterIdx m o d j = none) ∧
      ∀ t i, l.foldl (stepHit m o d) none = some (t, i) →
        i ∈ l ∧ rayTriInterIdx m o d i = some t ∧
          ∀ j ∈ l, ∀ u, rayTriInterIdx m o d j = some u → lexLe (t, i) (u, j) := by
  induction l with
  | nil =>
    constructor
    · intro _ j hj
      cases hj
    · intro t i h
      cases h
  | cons hd tl ih =>
    cases hh : rayTriInterIdx m o d hd with
    | none =>
      have hstep : (hd :: tl).foldl (stepHit m o d) none = tl.foldl (stepHit m o d) none := by
        rw [List.foldl_cons, stepHit_miss m o d none hd hh]
      constructor
      · intro hnone j hj
        rcases List.mem_cons.mp hj with rfl | hjtl
        · exact hh
        · exact ih.1 (by rw [← hstep]; exact hnone) j hjtl
      · intro t i hsome
        rw [hstep] at hsome
        obtain ⟨hmem, hhit, hmin⟩ := ih.2 t i hsome
        refine ⟨List.mem_cons_of_mem hd hmem, hhit, ?_⟩
        intro j hj u hu
        rcases List.mem_cons.mp hj with rfl | hjtl
        · rw [hh] at hu
          cases hu
        · exact hmin j hjtl u hu
    | some u0 =>
      have hstep : (hd :: tl).foldl (stepHit m o d) none =
          tl.foldl (stepHit m o d) (some (u0, hd)) := by
        rw [List.foldl_cons, stepHit_hit_none m o d hd u0 hh]
      obtain ⟨r, hr, hmem, hle, hmin⟩ := stepHit_fold_some m o d tl (u0, hd)
      constructor
      · intro hnone
        rw [hstep, hr] at hnone
        cases hnone
      · intro t i hsome
        rw [hstep, hr] at hsome
        have hrti : r = (t, i) := Option.some.inj hsome
        subst hrti
        refine ⟨?_, ?_, ?_⟩
        · rcases hmem with heq | hin
          · have hi : i = hd := congrArg Prod.snd heq
            rw [hi]
            exact List.mem_cons_self hd tl
          · exact List.mem_cons_of_mem hd hin.1
        · rcases hmem with heq | hin
          · have ht : t = u0 := congrArg Prod.fst heq
            have hi : i = hd := congrArg Prod.snd heq
            rw [ht, hi]
            exact hh
          · exact hin.2
        · intro j hj u hu
          rcases List.mem_cons.mp hj with heqj | hjtl
          · rw [heqj] at hu
            have hu0 : u = u0 := Option.some.inj (hh.symm.trans hu).symm
            rw [heqj, hu0]
            exact hle
          · exact hmin j hjtl u hu

/-- First (smallest-parameter) intersection of a ray with the mesh, ties
between triangles broken by the lowest triangle index. -/
def firstHit (m : Mesh) (o d : Vec3) : Option (ℚ × Nat) :=
  (List.range m.numFaces).foldl (stepHit m o d) none

/-- One step of the multiple-hit scan: record a hit unless an earlier
triangle already produced a hit at the same ray parameter. -/
def dedupStep (m : Mesh) (o d : Vec3) (acc : List (ℚ × Nat)) (i : Nat) : List (ℚ × Nat) :=
  match rayTriInterIdx m o d i with
  | none => acc
  | some t => if acc.any (fun h => decide (h.1 = t)) then acc else acc ++ [(t, i)]

/-- All intersections of a ray with the mesh, one entry per distinct ray
parameter, attributed to the lowest intersecting triangle index. -/
def allHitsDedup (m : Mesh) (o d : Vec3) : List (ℚ × Nat) :=
  (List.range m.numFaces).foldl (dedupStep m o d) []

theorem dedupStep_fold_mem (m : Mesh) (o d : Vec3) (l : List Nat) :
    ∀ acc hv, hv ∈ l.foldl (dedupStep m o d) acc →
      hv ∈ acc ∨ (hv.2 ∈ l ∧ rayTriInterIdx m o d hv.2 = some hv.1) := by
  induction l with
  | nil =>
    intro acc hv hh
    exact Or.inl hh
  | cons hd tl ih =>
    intro acc hv hh
    rw [List.foldl_cons] at hh
    rcases ih (dedupStep m o d acc hd) hv hh with hin | htl
    · unfold dedupStep at hin
      cases hcase : rayTriInterIdx m o d hd with
      | none =>
        simp only [hcase] at hin
        exact Or.inl hin
      | some t =>
        simp only [hcase] at hin
        by_cases hb : (acc.any fun h => decide (h.1 = t)) = true
        · rw [if_pos hb] at hin
          exact Or.inl hin
        · rw [if_neg hb] at hin
          rcases List.mem_append.mp hin with hacc | hsing
          · exact Or.inl hacc
          · rcases List.mem_singleton.mp hsing with heqv
            rw [heqv]
            exact Or.inr ⟨List.mem_cons_self hd tl, hcase⟩
    · exact Or.inr ⟨List.mem_cons_of_mem hd htl.1, htl.2⟩

/-- One recorded intersection: hit location, index of the ray that
produced it, index of the triangle hit, and the ray parameter. -/
structure RayHit where
  location : Vec3
  rayId : Nat
  triId : Nat
  param : ℚ
deriving DecidableEq

/-- Hits of a single ray under the given configuration. -/
def rayHitsFor (cfg : RayConfig) (m : Mesh) (o d : Vec3) : List (ℚ × Nat) :=
  if cfg.multipleHits then allHitsDedup m o d
  else
    match firstHit m o d with
    | none => []
    | some h => [h]

/-- Hit records over a batch of rays, numbering rays from `k`. -/
def rayHitRecordsAux (cfg : RayConfig) (m : Mesh) :
    Nat → List Vec3 → List Vec3 → List RayHit
  | _, [], _ => []
  | _, _ :: _, [] => []
  | k, o :: os, d :: ds =>
      (rayHitsFor cfg m o d).map (fun h => ⟨o.add (Vec3.smul h.1 d), k, h.2, h.1⟩) ++
        rayHitRecordsAux cfg m (k + 1) os ds

def rayHitRecords (cfg : RayConfig) (m : Mesh) (origins directions : List Vec3) :
    List RayHit :=
  rayHitRecordsAux cfg m 0 origins directions

/-- Modelled from the spec: `mesh.ray.intersects_location` of the
external library is absent from the repository; per the contract it
returns hit locations, hit-ray indices and hit-triangle indices, and
fails with the degenerate-ray error when a direction has zero length. -/
def intersectsLocation (cfg : RayConfig) (m : Mesh) (origins directions : List Vec3) :
    Except QueryError (List Vec3 × List Nat × List Nat) :=
  if directions.any (fun dv => decide (Vec3.sqnorm dv = 0)) then
    Except.error QueryError.degenerateRay
  else
    Except.ok ((rayHitRecords cfg m origins directions).map RayHit.location,
      (rayHitRecords cfg m origins directions).map RayHit.rayId,
      (rayHitRecords cfg m origins directions).map RayHit.triId)

/-- Stateful form of the ray query: it threads the mesh state explicitly
and returns it unchanged. -/
def intersectsLocationSt (cfg : RayConfig) (s : MeshState) (origins directions : List Vec3) :
    Except QueryError (List Vec3 × List Nat × List Nat) × MeshState :=
  (intersectsLocation cfg s.mesh origins directions, s)

/-- Modelled from the spec: `trimesh.creation.icosphere` is absent from
the repository; the unit icosphere is modelled as a triangulated sphere
with exact rational coordinates — the regular octahedron inscribed in
the unit sphere, every vertex at Euclidean distance exactly 1 from the
origin. -/
def icosphereModel : Mesh :=
  ⟨[⟨1, 0, 0⟩, ⟨-1, 0, 0⟩, ⟨0, 1, 0⟩, ⟨0, -1, 0⟩, ⟨0, 0, 1⟩, ⟨0, 0, -1⟩],
   [(0, 2, 4), (2, 1, 4), (1, 3, 4), (3, 0, 4), (2, 0, 5), (1, 2, 5), (3, 1, 5), (0, 3, 5)]⟩

/-- C3: a zero-length ray direction makes `intersectsLocation` fail
synchronously with the degenerate-ray error, in every configuration; no
result is produced, so the failure cannot be silently recovered. -/
theorem intersectsLocation_degenerate_ray (cfg : RayConfig) (m : Mesh)
    (origins directions : List Vec3) (hdeg : ∃ dv ∈ directions, Vec3.sqnorm dv = 0) :
    intersectsLocation cfg m origins directions = Except.error QueryError.degenerateRay := by
  unfold intersectsLocation
  rw [if_pos]
  obtain ⟨dv, hmem, hz⟩ := hdeg
  exact List.any_eq_true.mpr ⟨dv, hmem, decide_eq_true hz⟩

/-- Closed witness for C3: a zero direction among the rays of the sphere
scenario is rejected. -/
theorem intersectsLocation_degenerate_ray_witness :
    intersectsLocation defaultRayConfig icosphereModel [⟨0, 0, -3⟩] [⟨0, 0, 0⟩] =
      Except.error QueryError.degenerateRay :=
  intersectsLocation_degenerate_ray defaultRayConfig icosphereModel [⟨0, 0, -3⟩]
    [⟨0, 0, 0⟩] ⟨⟨0, 0, 0⟩, by decide, by decide⟩

/-- C5: repeating an identical query (nearest-surface or ray) against an
unmodified mesh state yields identical results, and neither query
modifies the mesh or the spatial index. -/
theorem queries_stateless_idempotent (s : MeshState) (pts origins directions : List Vec3)
    (cfg : RayConfig) :
    (nearestOnSurfaceSt s pts).2 = s ∧
      (intersectsLocationSt cfg s origins directions).2 = s ∧
      (nearestOnSurfaceSt (nearestOnSurfaceSt s pts).2 pts).1 = (nearestOnSurfaceSt s pts).1 ∧
      (intersectsLocationSt cfg (intersectsLocationSt cfg s origins directions).2 origins
          directions).1 = (intersectsLocationSt cfg s origins directions).1 :=
  ⟨rfl, rfl, rfl, rfl⟩

/-- C6: on the modelled unit icosphere, the single ray with origin
(0,0,-3) and direction (0,0,1) yields exactly one hit, at the surface
point nearest the origin along the ray, whose z-coordinate is -1. -/
theorem icosphere_ray_single_hit :
    ∃ loc k, intersectsLocation defaultRayConfig icosphereModel [⟨0, 0, -3⟩] [⟨0, 0, 1⟩] =
        Except.ok ([loc], [0], [k]) ∧ loc.z = -1 ∧ |loc.z - (-1)| < 1 / 10 :=
  ⟨⟨0, 0, -1⟩, 4, by decide, rfl, by norm_num⟩

/-- C7: in the default configuration a returned intersection never lies
behind the ray origin (non-negative ray parameter), and a ray touching a
point shared by several triangles (such as a shared edge) is counted
exactly once, attributed to the lowest intersecting triangle index. -/
theorem intersectsLocation_default_first_hit (m : Mesh) (o d : Vec3)
    (hd2 : Vec3.sqnorm d ≠ 0) :
    (∀ t i, firstHit m o d = some (t, i) →
        0 ≤ t ∧
          intersectsLocation defaultRayConfig m [o] [d] =
            Except.ok ([o.add (Vec3.smul t d)], [0], [i]) ∧
          rayTriInterIdx m o d i = some t ∧
          ∀ j, j < m.numFaces → ∀ u, rayTriInterIdx m o d j = some u →
            t < u ∨ (t = u ∧ i ≤ j)) ∧
      (firstHit m o d = none →
        intersectsLocation defaultRayConfig m [o] [d] = Except.ok ([], [], [])) := by
  have hany : (List.any [d] fun dv => decide (Vec3.sqnorm dv = 0)) = false := by
    simp [hd2]
  constructor
  · intro t i hfh
    obtain ⟨hmem, hhit, hmin⟩ :=
      (stepHit_fold_none_spec m o d (List.range m.numFaces)).2 t i hfh
    refine ⟨rayTriInterIdx_nonneg m o d i t hhit, ?_, hhit, ?_⟩
    · unfold intersectsLocation
      simp only [hany, Bool.false_eq_true, if_false]
      unfold rayHitRecords rayHitRecordsAux rayHitsFor defaultRayConfig
      simp only [hfh]
      rfl
    · intro j hj u hu
      exact hmin j (List.mem_range.mpr hj) u hu
  · intro hfh
    unfold intersectsLocation
    simp only [hany, Bool.false_eq_true, if_false]
    unfold rayHitRecords rayHitRecordsAux rayHitsFor defaultRayConfig
    simp only [hfh]
    rfl

/-- Closed witness for C7 on the modelled icosphere: the axis ray meets
the south-pole vertex shared by faces 4, 5, 6 and 7 at parameter 2, is
reported once, attributed to face 4, and every other intersection is
later or carries a larger index. -/
theorem intersectsLocation_default_first_hit_witness :
    0 ≤ (2 : ℚ) ∧
      intersectsLocation defaultRayConfig icosphereModel [⟨0, 0, -3⟩] [⟨0, 0, 1⟩] =
        Except.ok ([Vec3.add ⟨0, 0, -3⟩ (Vec3.smul 2 ⟨0, 0, 1⟩)], [0], [4]) ∧
      rayTriInterIdx icosphereModel ⟨0, 0, -3⟩ ⟨0, 0, 1⟩ 4 = some 2 ∧
      ∀ j, j < icosphereModel.numFaces → ∀ u,
        rayTriInterIdx icosphereModel ⟨0, 0, -3⟩ ⟨0, 0, 1⟩ j = some u →
          (2 : ℚ) < u ∨ ((2 : ℚ) = u ∧ 4 ≤ j) :=
  (intersectsLocation_default_first_hit icosphereModel ⟨0, 0, -3⟩ ⟨0, 0, 1⟩ (by decide)).1
    2 4 (by decide)

theorem rayHitsFor_triId_lt (cfg : RayConfig) (m : Mesh) (o d : Vec3) :
    ∀ hv ∈ rayHitsFor cfg m o d, hv.2 < m.numFaces := by
  intro hv hh
  unfold rayHitsFor at hh
  by_cases hcfg : cfg.multipleHits
  · rw [if_pos hcfg] at hh
    rcases dedupStep_fold_mem m o d (List.range m.numFaces) [] hv hh with hnil | hin
    · cases hnil
    · exact List.mem_range.mp hin.1
  · rw [if_neg hcfg] at hh
    cases hfh : firstHit m o d with
    | none =>
      rw [hfh] at hh
      cases hh
    | some p =>
      rw [hfh] at hh
      rcases List.mem_singleton.mp hh with rfl
      have hfold : List.foldl (stepHit m o d) none (List.range m.numFaces) =
          some (hv.1, hv.2) := by
        show firstHit m o d = some (hv.1, hv.2)
        rw [hfh]
      have hspec := (stepHit_fold_none_spec m o d (List.range m.numFaces)).2 hv.1 hv.2 hfold
      exact List.mem_range.mp hspec.1

theorem rayHitRecordsAux_triId_lt (cfg : RayConfig) (m : Mesh) :
    ∀ (os ds : List Vec3) (k : Nat) (rec : RayHit),
      rec ∈ rayHitRecordsAux cfg m k os ds → rec.triId < m.numFaces := by
  intro os
  induction os with
  | nil =>
    intro ds k rec hrec
    cases hrec
  | cons o os2 ih =>
    intro ds k rec hrec
    cases ds with
    | nil => cases hrec
    | cons d ds2 =>
      rcases List.mem_append.mp hrec with hmap | hrest
      · obtain ⟨hv, hvin, hveq⟩ := List.mem_map.mp hmap
        have := rayHitsFor_triId_lt cfg m o d hv hvin
        rw [← hveq]
        exact this
      · exact ih ds2 (k + 1) rec hrest

/-- C10: a successful `intersectsLocation` result has the hit-ray index
array and the hit-triangle index array of the same length as the
location array (one entry each per hit), and every returned triangle
index is a valid index into the face array. -/
theorem intersectsLocation_indices_valid (cfg : RayConfig) (m : Mesh)
    (origins directions : List Vec3) (locs : List Vec3) (rids tids : List Nat)
    (h : intersectsLocation cfg m origins directions = Except.ok (locs, rids, tids)) :
    rids.length = locs.length ∧ tids.length = locs.length ∧
      ∀ ti ∈ tids, ti < m.numFaces := by
  unfold intersectsLocation at h
  by_cases hany : (directions.any fun dv => decide (Vec3.sqnorm dv = 0)) = true
  · rw [if_pos hany] at h
    cases h
  · rw [if_neg hany] at h
    have h2 := Except.ok.inj h
    have hlocs : (rayHitRecords cfg m origins directions).map RayHit.location = locs :=
      congrArg (fun x => x.1) h2
    have hrids : (rayHitRecords cfg m origins directions).map RayHit.rayId = rids :=
      congrArg (fun x => x.2.1) h2
    have htids : (rayHitRecords cfg m origins directions).map RayHit.triId = tids :=
      congrArg (fun x => x.2.2) h2
    refine ⟨?_, ?_, ?_⟩
    · rw [← hlocs, ← hrids]
      simp
    · rw [← hlocs, ← htids]
      simp
    · intro ti hti
      rw [← htids] at hti
      obtain ⟨rec, hrec, hteq⟩ := List.mem_map.mp hti
      rw [← hteq]
      exact rayHitRecordsAux_triId_lt cfg m origins directions 0 rec hrec

/-- Closed witness for C10 on the icosphere scenario result. -/
theorem intersectsLocation_indices_valid_witness :
    ([0] : List Nat).length = ([(⟨0, 0, -1⟩ : Vec3)]).length ∧
      ([4] : List Nat).length = ([(⟨0, 0, -1⟩ : Vec3)]).length ∧
      ∀ ti ∈ ([4] : List Nat), ti < icosphereModel.numFaces :=
  intersectsLocation_indices_valid defaultRayConfig icosphereModel [⟨0, 0, -3⟩]
    [⟨0, 0, 1⟩] [⟨0, 0, -1⟩] [0] [4] (by decide)

/-- Kinds of discrete curvature measure. -/
inductive CurvatureKind where
  | gaussian
  | mean
deriving DecidableEq

/-- Modelled from the spec: the analytic sphere-cap correction
`sphereBallIntersection(R, r)` — the area of the intersection of the
sphere of radius `R` with a ball of radius `r` centered on its surface —
equals `π · min(r², 4R²)`; it is carried here scaled by `1/π` so that
the value stays rational. -/
def sphereBallIntersectionOverPi (rsph r : ℚ) : ℚ := min (r * r) (4 * rsph * rsph)

/-- Indices of mesh vertices lying within Euclidean distance `r` of `q`. -/
def ballVertexIndices (m : Mesh) (q : Vec3) (r : ℚ) : List Nat :=
  (List.range m.vertices.length).filter
    (fun i => decide (Vec3.sqnorm ((m.vert i).sub q) ≤ r * r))

/-- Modelled from the spec: the discrete curvature measure of the
external library is absent from the repository; per the spec it
accumulates a discrete curvature integral over the mesh surface
restricted to the ball of radius `r` around each query vertex,
normalized by the analytic sphere-cap correction, and fails with the
invalid-radius error when the radius is not positive.  The spec fixes
neither the Gaussian nor the mean pointwise integrand, so the integrand
is a parameter. -/
def curvatureMeasure (m : Mesh) (qs : List Vec3) (r : ℚ) (kind : CurvatureKind)
    (integrand : CurvatureKind → Mesh → Nat → ℚ) : Except QueryError (List ℚ) :=
  if r ≤ 0 then Except.error QueryError.invalidRadius
  else
    Except.ok (qs.map (fun q =>
      (((ballVertexIndices m q r).map (integrand kind m)).sum) /
        sphereBallIntersectionOverPi 1 r))

/-- C4: `curvatureMeasure` fails with the invalid-radius error exactly
when the given radius is not positive, and for any positive radius it
returns one value per query vertex. -/
theorem curvatureMeasure_radius_check (m : Mesh) (qs : List Vec3) (r : ℚ)
    (kind : CurvatureKind) (integrand : CurvatureKind → Mesh → Nat → ℚ) :
    (curvatureMeasure m qs r kind integrand = Except.error QueryError.invalidRadius ↔
        r ≤ 0) ∧
      (0 < r → ∃ vs, curvatureMeasure m qs r kind integrand = Except.ok vs ∧
        vs.length = qs.length) := by
  constructor
  · constructor
    · intro h
      by_contra hr
      unfold curvatureMeasure at h
      rw [if_neg hr] at h
      cases h
    · intro hr
      unfold curvatureMeasure
      rw [if_pos hr]
  · intro hr
    refine ⟨qs.map (fun q =>
        (((ballVertexIndices m q r).map (integrand kind m)).sum) /
          sphereBallIntersectionOverPi 1 r), ?_, by simp⟩
    unfold curvatureMeasure
    rw [if_neg (not_le.mpr hr)]

/-- Closed witness for C4: a positive radius on the modelled icosphere
produces one curvature value per query vertex. -/
theorem curvatureMeasure_radius_check_witness :
    ∃ vs, curvatureMeasure icosphereModel [⟨1, 0, 0⟩] (1 / 2) CurvatureKind.gaussian
        (fun _ _ _ => 0) = Except.ok vs ∧ vs.length = [(⟨1, 0, 0⟩ : Vec3)].length :=
  (curvatureMeasure_radius_check icosphereModel [⟨1, 0, 0⟩] (1 / 2) CurvatureKind.gaussian
      (fun _ _ _ => 0)).2 (by norm_num)

end TrimeshSpec
